import Mathlib

/-!
Shallow embedding of the HMC sampling core of the SPIN-SC3 notebook
`inverse-theory/Practical_1/05 - HMC.ipynb`, together with the acceptance
rule of the Metropolis-Hastings sampler of the same file.

The sampler works on numpy float64 arrays.  Finite float values are modelled
by elements of a linear ordered field `K` (instantiated with `ℝ` in the
statements that involve `np.log` / `np.exp`, and with `ℚ` in concrete
evaluations); the non-finite IEEE values that can arise in the Metropolis
comparison are modelled explicitly by the type `FP` below.  The external
oracles `magnetic.log_posterior` and `magnetic.grad_posterior` are abstract
function parameters, exactly as the spec treats them ("supplied externally").
Randomness (`np.random.randn`, `np.random.random`) is modelled as an explicit
stream of draws consumed one per iteration, reflecting that after
`np.random.seed(0)` the numpy generator is a deterministic sequence.
-/

/-- IEEE-style value for the quantities appearing in the Metropolis
comparison: a finite value of `K`, `+inf`, `-inf`, or `NaN`. -/
inductive FP (K : Type) where
  | fin : K → FP K
  | pinf : FP K
  | ninf : FP K
  | nan : FP K

/-- Model of `np.minimum` on scalars: NaN propagates (unlike `np.fmin`),
otherwise the usual minimum with infinities. -/
def npMinimum {K : Type} [LinearOrderedField K] : FP K → FP K → FP K
  | .nan, _ => .nan
  | _, .nan => .nan
  | .ninf, _ => .ninf
  | _, .ninf => .ninf
  | .pinf, b => b
  | a, .pinf => a
  | .fin a, .fin b => .fin (min a b)

/-- Model of the IEEE `>=` comparison used by `r>=np.log(...)`: any
comparison involving NaN is false; infinities compare as usual
(`-inf >= -inf` and `+inf >= +inf` are true). -/
def fpGe {K : Type} [LinearOrderedField K] : FP K → FP K → Bool
  | .nan, _ => false
  | _, .nan => false
  | .pinf, _ => true
  | _, .pinf => false
  | _, .ninf => true
  | .ninf, _ => false
  | .fin a, .fin b => decide (b ≤ a)

/-- The HMC Metropolis rule of the sampling loop, in logarithmic form:
`r=np.minimum(0.0,H-H_prop)` followed by `r>=np.log(np.random.random(1))`.
`dH` is the energy difference `H - H_prop` and `logu` the (possibly `-inf`)
logarithm of the uniform draw. -/
def metropolisAccept {K : Type} [LinearOrderedField K] (dH : FP K) (logu : FP K) : Bool :=
  fpGe (npMinimum (.fin 0) dH) logu

/-- Acceptance predicate over the reals: the energy difference `dH` (an `FP`
value) is compared against `np.log u` for a uniform draw `u ∈ [0,1)`, where
`np.log 0 = -inf` and `np.log u` is finite for `0 < u`. -/
def acceptsFP (dH : FP ℝ) (u : ℝ) : Prop :=
  metropolisAccept dH (if u = 0 then FP.ninf else FP.fin (Real.log u)) = true

/-- The Metropolis-Hastings acceptance rule of the companion sampler in the
same file: `r=np.exp(rho_prop-rho)` accepted iff `r>np.random.rand()`. -/
def mhAccepts (rho_prop rho u : ℝ) : Prop :=
  Real.exp (rho_prop - rho) > u

/-- One pass of the body of the leap-frog `for k in range(Nt)` loop.  The
state is `(m_prop, p_prop, J)` where `J` carries the negated gradient
computed at the end of the previous pass (initially at the start position):
`p_prop=p_prop-0.5*dt*J; m_prop=m_prop+dt*p_prop; J=-grad(m_prop);
p_prop=p_prop-0.5*dt*J`. -/
def leapfrogInner {ι K : Type} [LinearOrderedField K]
    (gp : (ι → K) → ι → K) (dt : K)
    (s : (ι → K) × (ι → K) × (ι → K)) : (ι → K) × (ι → K) × (ι → K) :=
  let p1 := fun i => s.2.1 i - 1/2 * dt * s.2.2 i
  let m1 := fun i => s.1 i + dt * p1 i
  let J1 := fun i => -(gp m1 i)
  let p2 := fun i => p1 i - 1/2 * dt * J1 i
  (m1, p2, J1)

/-- The full leap-frog integration of one sampling iteration:
`J=-grad(m)` followed by `Nt` passes of the inner loop, returning the
proposed position and momentum. -/
def hmcLeapfrog {ι K : Type} [LinearOrderedField K]
    (gp : (ι → K) → ι → K) (dt : K) (Nt : ℕ) (m p : ι → K) :
    (ι → K) × (ι → K) :=
  let s := (leapfrogInner gp dt)^[Nt] (m, p, fun i => -(gp m i))
  (s.1, s.2.1)

/-- Modelled from the spec: one leap-frog sub-step as the spec sentence
describes it — a half-step momentum update with the negative gradient of the
log-posterior at the current position, a full position step with the updated
momentum, and a second half-step momentum update with the negative gradient
re-evaluated at the updated position.  To be compared with `hmcLeapfrog`,
which carries the gradient between passes as the notebook does. -/
def leapfrogSubstep {ι K : Type} [LinearOrderedField K]
    (gp : (ι → K) → ι → K) (dt : K)
    (s : (ι → K) × (ι → K)) : (ι → K) × (ι → K) :=
  let p1 := fun i => s.2 i - 1/2 * dt * (-(gp s.1 i))
  let m1 := fun i => s.1 i + dt * p1 i
  let p2 := fun i => p1 i - 1/2 * dt * (-(gp m1 i))
  (m1, p2)

/-- Total energy of a (position, momentum) pair:
`U=-log_posterior(...); K=0.5*np.dot(p.flatten(),p.flatten()); H=U+K`. -/
def hmcEnergy {ι K : Type} [Fintype ι] [LinearOrderedField K]
    (lp : (ι → K) → K) (m p : ι → K) : K :=
  -(lp m) + 1/2 * ∑ i, p i * p i

/-- The read-only observation data of the run: `d_obs`, `phi_obs`,
`theta_obs` (indexed by the observation-point index `κ`). -/
structure Obs (κ K : Type) where
  d_obs : κ → K
  phi_obs : κ → K
  theta_obs : κ → K

/-- The mutable sampler state of the loop: coefficient vector `m`, stored
total energy `H`, number of accepted models `accept`, and the two output
chains `s1`, `s2`. -/
structure SamplerState (ι K : Type) where
  m : ι → K
  H : K
  accept : ℕ
  s1 : List K
  s2 : List K

/-- Parameters of the sampler: the external log-posterior and gradient
oracles (reading the observation data), the external `np.log` used on the
uniform draw, the step size `dt`, the number of leap-frog steps `Nt`, and
the two scalar projections collected into `s1` and `s2`
(`m[0,2,1]` and `m[0,1,1]` in the notebook). -/
structure HMCConfig (ι κ K : Type) where
  log_posterior : Obs κ K → (ι → K) → K
  grad_posterior : Obs κ K → (ι → K) → ι → K
  np_log : K → FP K
  dt : K
  Nt : ℕ
  proj1 : (ι → K) → K
  proj2 : (ι → K) → K

/-- One iteration of the sampling loop, translated line by line from the
notebook: draw `(p, u)` is supplied by the randomness stream; energies are
evaluated, the leap-frog proposal is computed, the Metropolis rule decides
acceptance (replacing `m` and `H` and bumping `accept`), and one scalar
projection of the (possibly unchanged) current model is appended to each
chain. -/
def hmcIter {ι κ K : Type} [Fintype ι] [LinearOrderedField K]
    (cfg : HMCConfig ι κ K) (obs : Obs κ K)
    (st : SamplerState ι K) (p : ι → K) (u : K) : SamplerState ι K :=
  let lp := cfg.log_posterior obs
  let gp := cfg.grad_posterior obs
  let H := hmcEnergy lp st.m p
  let prop := hmcLeapfrog gp cfg.dt cfg.Nt st.m p
  let H_prop := hmcEnergy lp prop.1 prop.2
  let st1 :=
    if metropolisAccept (FP.fin (H - H_prop)) (cfg.np_log u) = true then
      { st with m := prop.1, H := H_prop, accept := st.accept + 1 }
    else
      { st with H := H }
  { st1 with s1 := st1.s1 ++ [cfg.proj1 st1.m], s2 := st1.s2 ++ [cfg.proj2 st1.m] }

/-- One step of the loop on the full program state: the observation data is
in scope but only read, never written. -/
def hmcStep {ι κ K : Type} [Fintype ι] [LinearOrderedField K]
    (cfg : HMCConfig ι κ K)
    (s : Obs κ K × SamplerState ι K) (d : (ι → K) × K) :
    Obs κ K × SamplerState ι K :=
  (s.1, hmcIter cfg s.1 s.2 d.1 d.2)

/-- The sampling loop `for it in range(0,N)`: fold of `hmcStep` over the
stream of random draws (one momentum vector and one uniform per
iteration). -/
def hmcRun {ι κ K : Type} [Fintype ι] [LinearOrderedField K]
    (cfg : HMCConfig ι κ K)
    (init : Obs κ K × SamplerState ι K)
    (draws : List ((ι → K) × K)) : Obs κ K × SamplerState ι K :=
  draws.foldl (hmcStep cfg) init

/-- The state just before the loop: `accept=0`, `s1=[]`, `s2=[]`, with the
initial model vector.  The notebook leaves `H` undefined before the loop
(it is recomputed at the top of every iteration); it is set to `0` here. -/
def initState {ι K : Type} [LinearOrderedField K] (m0 : ι → K) : SamplerState ι K :=
  ⟨m0, 0, 0, [], []⟩

/-- Randomness stream derived from a seed by a deterministic generator,
modelling numpy's seeded global generator. -/
def mkDraws {ι K : Type} (gen : ℕ → ℕ → ((ι → K) × K)) (seed N : ℕ) :
    List ((ι → K) × K) :=
  (List.range N).map (gen seed)

/-- Concrete rational-valued configuration used to evaluate the sampler on
explicit inputs. -/
def cfgQ : HMCConfig (Fin 1) (Fin 1) ℚ where
  log_posterior := fun _ _ => 0
  grad_posterior := fun _ _ _ => 0
  np_log := fun _ => FP.fin (-1)
  dt := 1
  Nt := 1
  proj1 := fun v => v 0
  proj2 := fun v => v 0

/-- Concrete observation data for evaluation. -/
def obsQ : Obs (Fin 1) ℚ := ⟨fun _ => 0, fun _ => 0, fun _ => 0⟩

/-- Concrete deterministic generator for evaluation. -/
def genQ : ℕ → ℕ → ((Fin 1 → ℚ) × ℚ) := fun _ _ => (fun _ => 1, 1/2)

theorem fpGe_fin_fin {K : Type} [LinearOrderedField K] (a b : K) :
    fpGe (FP.fin a) (FP.fin b) = decide (b ≤ a) := rfl

theorem fpGe_fin_ninf {K : Type} [LinearOrderedField K] (a : K) :
    fpGe (FP.fin a) FP.ninf = true := rfl

theorem fpGe_ninf_fin {K : Type} [LinearOrderedField K] (a : K) :
    fpGe FP.ninf (FP.fin a) = false := rfl

theorem fpGe_ninf_ninf {K : Type} [LinearOrderedField K] :
    fpGe (FP.ninf : FP K) FP.ninf = true := rfl

theorem fpGe_nan_left {K : Type} [LinearOrderedField K] (x : FP K) :
    fpGe FP.nan x = false := by cases x <;> rfl

theorem npMinimum_fin_fin {K : Type} [LinearOrderedField K] (a b : K) :
    npMinimum (FP.fin a) (FP.fin b) = FP.fin (min a b) := rfl

theorem npMinimum_fin_pinf {K : Type} [LinearOrderedField K] (a : K) :
    npMinimum (FP.fin a) FP.pinf = FP.fin a := rfl

theorem npMinimum_fin_ninf {K : Type} [LinearOrderedField K] (a : K) :
    npMinimum (FP.fin a) FP.ninf = FP.ninf := rfl

theorem npMinimum_fin_nan {K : Type} [LinearOrderedField K] (a : K) :
    npMinimum (FP.fin a) FP.nan = FP.nan := rfl

theorem leapfrogInner_inv {ι K : Type} [LinearOrderedField K]
    (gp : (ι → K) → ι → K) (dt : K) (a b : ι → K) :
    leapfrogInner gp dt (a, b, fun i => -(gp a i)) =
      ((leapfrogSubstep gp dt (a, b)).1, (leapfrogSubstep gp dt (a, b)).2,
       fun i => -(gp (leapfrogSubstep gp dt (a, b)).1 i)) := rfl

theorem leapfrog_iterate {ι K : Type} [LinearOrderedField K]
    (gp : (ι → K) → ι → K) (dt : K) (m p : ι → K) (n : ℕ) :
    (leapfrogInner gp dt)^[n] (m, p, fun i => -(gp m i)) =
      (((leapfrogSubstep gp dt)^[n] (m, p)).1,
       ((leapfrogSubstep gp dt)^[n] (m, p)).2,
       fun i => -(gp ((leapfrogSubstep gp dt)^[n] (m, p)).1 i)) := by
  induction n with
  | zero => rfl
  | succ n ih =>
      rw [Function.iterate_succ_apply', ih, Function.iterate_succ_apply']
      exact leapfrogInner_inv gp dt _ _

/-- C3: in every sampling iteration the proposal is produced by exactly `Nt`
leap-frog sub-steps of size `dt`, each consisting of a half-step momentum
update with the negative gradient at the current position, a full-step
position update with the updated momentum, and a second half-step momentum
update with the negative gradient re-evaluated at the updated position: the
notebook's gradient-carrying loop agrees with the `Nt`-fold iterate of that
sub-step. -/
theorem hmc_leapfrog_substeps {ι K : Type} [LinearOrderedField K]
    (gp : (ι → K) → ι → K) (dt : K) (Nt : ℕ) (m p : ι → K) :
    hmcLeapfrog gp dt Nt m p = (leapfrogSubstep gp dt)^[Nt] (m, p) := by
  unfold hmcLeapfrog
  rw [leapfrog_iterate]

theorem hmcIter_eq {ι κ K : Type} [Fintype ι] [LinearOrderedField K]
    (cfg : HMCConfig ι κ K) (obs : Obs κ K)
    (st : SamplerState ι K) (p : ι → K) (u : K) :
    hmcIter cfg obs st p u =
      if metropolisAccept
          (FP.fin (hmcEnergy (cfg.log_posterior obs) st.m p -
            hmcEnergy (cfg.log_posterior obs)
              (hmcLeapfrog (cfg.grad_posterior obs) cfg.dt cfg.Nt st.m p).1
              (hmcLeapfrog (cfg.grad_posterior obs) cfg.dt cfg.Nt st.m p).2))
          (cfg.np_log u) = true then
        SamplerState.mk
          (hmcLeapfrog (cfg.grad_posterior obs) cfg.dt cfg.Nt st.m p).1
          (hmcEnergy (cfg.log_posterior obs)
            (hmcLeapfrog (cfg.grad_posterior obs) cfg.dt cfg.Nt st.m p).1
            (hmcLeapfrog (cfg.grad_posterior obs) cfg.dt cfg.Nt st.m p).2)
          (st.accept + 1)
          (st.s1 ++ [cfg.proj1 (hmcLeapfrog (cfg.grad_posterior obs) cfg.dt cfg.Nt st.m p).1])
          (st.s2 ++ [cfg.proj2 (hmcLeapfrog (cfg.grad_posterior obs) cfg.dt cfg.Nt st.m p).1])
      else
        SamplerState.mk st.m (hmcEnergy (cfg.log_posterior obs) st.m p) st.accept
          (st.s1 ++ [cfg.proj1 st.m]) (st.s2 ++ [cfg.proj2 st.m]) := by
  simp only [hmcIter]
  split <;> rfl

theorem hmcRun_nil {ι κ K : Type} [Fintype ι] [LinearOrderedField K]
    (cfg : HMCConfig ι κ K) (init : Obs κ K × SamplerState ι K) :
    hmcRun cfg init [] = init := rfl

theorem hmcRun_cons {ι κ K : Type} [Fintype ι] [LinearOrderedField K]
    (cfg : HMCConfig ι κ K) (init : Obs κ K × SamplerState ι K)
    (d : (ι → K) × K) (draws : List ((ι → K) × K)) :
    hmcRun cfg init (d :: draws) = hmcRun cfg (hmcStep cfg init d) draws := rfl

theorem hmcRun_concat {ι κ K : Type} [Fintype ι] [LinearOrderedField K]
    (cfg : HMCConfig ι κ K) (init : Obs κ K × SamplerState ι K)
    (draws : List ((ι → K) × K)) (d : (ι → K) × K) :
    hmcRun cfg init (draws ++ [d]) = hmcStep cfg (hmcRun cfg init draws) d := by
  unfold hmcRun
  rw [List.foldl_append]
  rfl

/-- C4: in every sampling iteration, on acceptance the coefficient vector and
the stored energy become the proposed `m_prop` and `H_prop`, and on rejection
they are exactly the values held before the proposal (`m` unchanged, `H` as
recomputed at the top of the iteration); in both cases the only other fields
touched are the acceptance counter (bumped only on acceptance) and the two
output chains (one appended entry each). -/
theorem hmc_accept_reject_state {ι κ K : Type} [Fintype ι] [LinearOrderedField K]
    (cfg : HMCConfig ι κ K) (obs : Obs κ K)
    (st : SamplerState ι K) (p : ι → K) (u : K) :
    hmcIter cfg obs st p u =
      if metropolisAccept
          (FP.fin (hmcEnergy (cfg.log_posterior obs) st.m p -
            hmcEnergy (cfg.log_posterior obs)
              (hmcLeapfrog (cfg.grad_posterior obs) cfg.dt cfg.Nt st.m p).1
              (hmcLeapfrog (cfg.grad_posterior obs) cfg.dt cfg.Nt st.m p).2))
          (cfg.np_log u) = true then
        SamplerState.mk
          (hmcLeapfrog (cfg.grad_posterior obs) cfg.dt cfg.Nt st.m p).1
          (hmcEnergy (cfg.log_posterior obs)
            (hmcLeapfrog (cfg.grad_posterior obs) cfg.dt cfg.Nt st.m p).1
            (hmcLeapfrog (cfg.grad_posterior obs) cfg.dt cfg.Nt st.m p).2)
          (st.accept + 1)
          (st.s1 ++ [cfg.proj1 (hmcLeapfrog (cfg.grad_posterior obs) cfg.dt cfg.Nt st.m p).1])
          (st.s2 ++ [cfg.proj2 (hmcLeapfrog (cfg.grad_posterior obs) cfg.dt cfg.Nt st.m p).1])
      else
        SamplerState.mk st.m (hmcEnergy (cfg.log_posterior obs) st.m p) st.accept
          (st.s1 ++ [cfg.proj1 st.m]) (st.s2 ++ [cfg.proj2 st.m]) :=
  hmcIter_eq cfg obs st p u

theorem hmcIter_s1_len {ι κ K : Type} [Fintype ι] [LinearOrderedField K]
    (cfg : HMCConfig ι κ K) (obs : Obs κ K)
    (st : SamplerState ι K) (p : ι → K) (u : K) :
    (hmcIter cfg obs st p u).s1.length = st.s1.length + 1 := by
  rw [hmcIter_eq]
  split <;> simp

theorem hmcIter_s2_len {ι κ K : Type} [Fintype ι] [LinearOrderedField K]
    (cfg : HMCConfig ι κ K) (obs : Obs κ K)
    (st : SamplerState ι K) (p : ι → K) (u : K) :
    (hmcIter cfg obs st p u).s2.length = st.s2.length + 1 := by
  rw [hmcIter_eq]
  split <;> simp

theorem hmcIter_accept_bounds {ι κ K : Type} [Fintype ι] [LinearOrderedField K]
    (cfg : HMCConfig ι κ K) (obs : Obs κ K)
    (st : SamplerState ι K) (p : ι → K) (u : K) :
    st.accept ≤ (hmcIter cfg obs st p u).accept ∧
      (hmcIter cfg obs st p u).accept ≤ st.accept + 1 := by
  rw [hmcIter_eq]
  split <;> simp

theorem hmcIter_s1_shape {ι κ K : Type} [Fintype ι] [LinearOrderedField K]
    (cfg : HMCConfig ι κ K) (obs : Obs κ K)
    (st : SamplerState ι K) (p : ι → K) (u : K) :
    ∃ x, (hmcIter cfg obs st p u).s1 = st.s1 ++ [x] := by
  rw [hmcIter_eq]
  split <;> exact ⟨_, rfl⟩

theorem hmcIter_s2_shape {ι κ K : Type} [Fintype ι] [LinearOrderedField K]
    (cfg : HMCConfig ι κ K) (obs : Obs κ K)
    (st : SamplerState ι K) (p : ι → K) (u : K) :
    ∃ x, (hmcIter cfg obs st p u).s2 = st.s2 ++ [x] := by
  rw [hmcIter_eq]
  split <;> exact ⟨_, rfl⟩

theorem hmcRun_stats {ι κ K : Type} [Fintype ι] [LinearOrderedField K]
    (cfg : HMCConfig ι κ K) (draws : List ((ι → K) × K)) :
    ∀ init : Obs κ K × SamplerState ι K,
      (hmcRun cfg init draws).2.s1.length = init.2.s1.length + draws.length ∧
      (hmcRun cfg init draws).2.s2.length = init.2.s2.length + draws.length ∧
      (hmcRun cfg init draws).2.accept ≤ init.2.accept + draws.length := by
  induction draws with
  | nil => intro init; simp [hmcRun_nil]
  | cons d t ih =>
      intro init
      rw [hmcRun_cons]
      obtain ⟨h1, h2, h3⟩ := ih (hmcStep cfg init d)
      have e1 : (hmcStep cfg init d).2.s1.length = init.2.s1.length + 1 :=
        hmcIter_s1_len cfg init.1 init.2 d.1 d.2
      have e2 : (hmcStep cfg init d).2.s2.length = init.2.s2.length + 1 :=
        hmcIter_s2_len cfg init.1 init.2 d.1 d.2
      have e3 := hmcIter_accept_bounds cfg init.1 init.2 d.1 d.2
      have e3' : (hmcStep cfg init d).2.accept ≤ init.2.accept + 1 := e3.2
      refine ⟨?_, ?_, ?_⟩
      · rw [h1, e1]; simp; omega
      · rw [h2, e2]; simp; omega
      · calc (hmcRun cfg (hmcStep cfg init d) t).2.accept
            ≤ (hmcStep cfg init d).2.accept + t.length := h3
          _ ≤ init.2.accept + 1 + t.length := by omega
          _ = init.2.accept + (d :: t).length := by simp; omega

theorem hmcRun_obs_eq {ι κ K : Type} [Fintype ι] [LinearOrderedField K]
    (cfg : HMCConfig ι κ K) (draws : List ((ι → K) × K)) :
    ∀ init : Obs κ K × SamplerState ι K, (hmcRun cfg init draws).1 = init.1 := by
  induction draws with
  | nil => intro init; rfl
  | cons d t ih => intro init; rw [hmcRun_cons]; exact ih (hmcStep cfg init d)

theorem hmcRun_chains_extend {ι κ K : Type} [Fintype ι] [LinearOrderedField K]
    (cfg : HMCConfig ι κ K) (draws : List ((ι → K) × K)) :
    ∀ init : Obs κ K × SamplerState ι K,
      ∃ t1 t2, (hmcRun cfg init draws).2.s1 = init.2.s1 ++ t1 ∧
        (hmcRun cfg init draws).2.s2 = init.2.s2 ++ t2 := by
  induction draws with
  | nil => intro init; exact ⟨[], [], by simp [hmcRun_nil], by simp [hmcRun_nil]⟩
  | cons d t ih =>
      intro init
      rw [hmcRun_cons]
      obtain ⟨t1, t2, h1, h2⟩ := ih (hmcStep cfg init d)
      obtain ⟨x1, hx1⟩ := hmcIter_s1_shape cfg init.1 init.2 d.1 d.2
      obtain ⟨x2, hx2⟩ := hmcIter_s2_shape cfg init.1 init.2 d.1 d.2
      refine ⟨x1 :: t1, x2 :: t2, ?_, ?_⟩
      · rw [h1]
        show (hmcIter cfg init.1 init.2 d.1 d.2).s1 ++ t1 = _
        rw [hx1, List.append_assoc]
        rfl
      · rw [h2]
        show (hmcIter cfg init.1 init.2 d.1 d.2).s2 ++ t2 = _
        rw [hx2, List.append_assoc]
        rfl

/-- C9: over a whole run the observation data (`d_obs`, `theta_obs`,
`phi_obs`) is never modified — the loop state returned by `hmcRun` carries
it through unchanged — and the loop's only effect on the chains is to extend
them; the remaining effects are confined to the sampler's own state. -/
theorem hmc_obs_readonly {ι κ K : Type} [Fintype ι] [LinearOrderedField K]
    (cfg : HMCConfig ι κ K) (draws : List ((ι → K) × K))
    (init : Obs κ K × SamplerState ι K) :
    (hmcRun cfg init draws).1 = init.1 ∧
      ∃ t1 t2, (hmcRun cfg init draws).2.s1 = init.2.s1 ++ t1 ∧
        (hmcRun cfg init draws).2.s2 = init.2.s2 ++ t2 :=
  ⟨hmcRun_obs_eq cfg draws init, hmcRun_chains_extend cfg draws init⟩

/-- C5: starting from the initial state (`accept=0`, empty chains), a run
over `N` random draws appends exactly one entry per iteration to each chain,
so both chains have length `N`, and the acceptance counter — monotone and
increased by at most 1 per iteration — is at most `N`. -/
theorem hmc_chain_lengths {ι κ K : Type} [Fintype ι] [LinearOrderedField K]
    (cfg : HMCConfig ι κ K) (obs : Obs κ K) (m0 : ι → K)
    (draws : List ((ι → K) × K)) :
    (hmcRun cfg (obs, initState m0) draws).2.s1.length = draws.length ∧
    (hmcRun cfg (obs, initState m0) draws).2.s2.length = draws.length ∧
    (hmcRun cfg (obs, initState m0) draws).2.accept ≤ draws.length ∧
    (∀ (st : SamplerState ι K) (p : ι → K) (u : K),
      (hmcIter cfg obs st p u).s1.length = st.s1.length + 1 ∧
      (hmcIter cfg obs st p u).s2.length = st.s2.length + 1 ∧
      st.accept ≤ (hmcIter cfg obs st p u).accept ∧
      (hmcIter cfg obs st p u).accept ≤ st.accept + 1) := by
  obtain ⟨h1, h2, h3⟩ := hmcRun_stats cfg draws (obs, initState m0)
  refine ⟨by simpa [initState] using h1, by simpa [initState] using h2,
    by simpa [initState] using h3, fun st p u => ?_⟩
  obtain ⟨b1, b2⟩ := hmcIter_accept_bounds cfg obs st p u
  exact ⟨hmcIter_s1_len cfg obs st p u, hmcIter_s2_len cfg obs st p u, b1, b2⟩

/-- C7: with the seeded generator modelled as a deterministic function of the
seed (as `np.random.seed(0)` makes numpy's global generator), two executions
with equal seeds and identical inputs consume identical sequences of
momentum/uniform draws and produce identical full outputs (observation data,
model, energy, acceptance counter, and both chains). -/
theorem hmc_deterministic {ι κ K : Type} [Fintype ι] [LinearOrderedField K]
    (cfg : HMCConfig ι κ K) (init : Obs κ K × SamplerState ι K)
    (gen : ℕ → ℕ → ((ι → K) × K)) (seed1 seed2 N : ℕ)
    (h : seed1 = seed2) :
    mkDraws gen seed1 N = mkDraws gen seed2 N ∧
      hmcRun cfg init (mkDraws gen seed1 N) = hmcRun cfg init (mkDraws gen seed2 N) := by
  subst h
  exact ⟨rfl, rfl⟩

/-- Witness for `hmc_deterministic` at a concrete rational configuration and
seed. -/
theorem hmc_deterministic_witness :
    (0 : ℕ) = 0 ∧
      (mkDraws genQ 0 3 = mkDraws genQ 0 3 ∧
        hmcRun cfgQ (obsQ, initState fun _ => 0) (mkDraws genQ 0 3) =
          hmcRun cfgQ (obsQ, initState fun _ => 0) (mkDraws genQ 0 3)) :=
  ⟨rfl, hmc_deterministic cfgQ (obsQ, initState fun _ => 0) genQ 0 0 3 rfl⟩

/-- C8: the momentum is a fresh per-iteration draw of the same shape
`2 × Nc × Nc` as the coefficient vector: extending a run by one draw applies
one iteration to the state reached so far, consuming exactly that draw (the
sampler state itself stores no momentum, so none is carried over); and the
total energy evaluated from a momentum `p` is the negative log-posterior
plus one half of the squared Euclidean norm of `p`. -/
theorem hmc_fresh_momentum_energy {κ : Type} (Nc : ℕ)
    (cfg : HMCConfig (Fin 2 × Fin Nc × Fin Nc) κ ℝ)
    (init : Obs κ ℝ × SamplerState (Fin 2 × Fin Nc × Fin Nc) ℝ)
    (pre : List ((Fin 2 × Fin Nc × Fin Nc → ℝ) × ℝ))
    (d : (Fin 2 × Fin Nc × Fin Nc → ℝ) × ℝ)
    (lp : (Fin 2 × Fin Nc × Fin Nc → ℝ) → ℝ)
    (mv p : Fin 2 × Fin Nc × Fin Nc → ℝ) :
    hmcEnergy lp mv p = -(lp mv) + 1/2 * ∑ i, (p i)^2 ∧
      hmcRun cfg init (pre ++ [d]) =
        ((hmcRun cfg init pre).1,
          hmcIter cfg (hmcRun cfg init pre).1 (hmcRun cfg init pre).2 d.1 d.2) := by
  constructor
  · simp [hmcEnergy, sq]
  · exact hmcRun_concat cfg init pre d

theorem acceptsFP_def_pos (dH : FP ℝ) (u : ℝ) (hu : u ≠ 0) :
    acceptsFP dH u = (fpGe (npMinimum (FP.fin 0) dH) (FP.fin (Real.log u)) = true) := by
  unfold acceptsFP metropolisAccept
  rw [if_neg hu]

theorem acceptsFP_def_zero (dH : FP ℝ) :
    acceptsFP dH 0 = (fpGe (npMinimum (FP.fin 0) dH) FP.ninf = true) := by
  unfold acceptsFP metropolisAccept
  rw [if_pos rfl]

theorem acceptsFP_fin_zero (dH : ℝ) : acceptsFP (FP.fin dH) 0 := by
  rw [acceptsFP_def_zero, npMinimum_fin_fin, fpGe_fin_ninf]

theorem acceptsFP_fin_pos (dH u : ℝ) (hu : 0 < u) :
    acceptsFP (FP.fin dH) u ↔ Real.log u ≤ min 0 dH := by
  rw [acceptsFP_def_pos _ u (ne_of_gt hu), npMinimum_fin_fin, fpGe_fin_fin]
  simp

theorem exp_min_zero (dH : ℝ) : Real.exp (min 0 dH) = min 1 (Real.exp dH) := by
  rcases le_total 0 dH with h | h
  · rw [min_eq_left h, Real.exp_zero, min_eq_left (Real.one_le_exp h)]
  · rw [min_eq_right h, min_eq_right (Real.exp_le_one_iff.mpr h)]

theorem acceptsFP_fin_iff (dH u : ℝ) (h0 : 0 ≤ u) (h1 : u < 1) :
    acceptsFP (FP.fin dH) u ↔ u ≤ min 1 (Real.exp dH) := by
  rcases eq_or_lt_of_le h0 with h | h
  · rw [← h]
    exact iff_of_true (acceptsFP_fin_zero dH)
      (le_min zero_le_one (Real.exp_pos dH).le)
  · rw [acceptsFP_fin_pos dH u h, Real.log_le_iff_le_exp h, exp_min_zero]

/-- C1: for finite energies the Metropolis rule of the sampling loop accepts
exactly when `log u ≤ min(0, H - H_prop)`, equivalently when
`u ≤ min(1, exp(H - H_prop))`; the Lebesgue measure of the accepting uniform
draws in `[0,1)` — the acceptance probability — is exactly
`min(1, exp(current_energy - proposed_energy))`. -/
theorem hmc_accept_probability (dH : ℝ) :
    (∀ u : ℝ, 0 < u → u < 1 →
      (acceptsFP (FP.fin dH) u ↔ Real.log u ≤ min 0 dH)) ∧
    (∀ u : ℝ, 0 ≤ u → u < 1 →
      (acceptsFP (FP.fin dH) u ↔ u ≤ min 1 (Real.exp dH))) ∧
    MeasureTheory.volume {u : ℝ | u ∈ Set.Ico (0:ℝ) 1 ∧ acceptsFP (FP.fin dH) u} =
      ENNReal.ofReal (min 1 (Real.exp dH)) := by
  refine ⟨fun u hu _ => acceptsFP_fin_pos dH u hu,
    fun u h0 h1 => acceptsFP_fin_iff dH u h0 h1, ?_⟩
  have hc1 : min 1 (Real.exp dH) ≤ 1 := min_le_left _ _
  have hsub1 : Set.Ico (0:ℝ) (min 1 (Real.exp dH)) ⊆
      {u : ℝ | u ∈ Set.Ico (0:ℝ) 1 ∧ acceptsFP (FP.fin dH) u} := by
    intro u hu
    have h1u : u < 1 := lt_of_lt_of_le hu.2 hc1
    exact ⟨⟨hu.1, h1u⟩, (acceptsFP_fin_iff dH u hu.1 h1u).mpr (le_of_lt hu.2)⟩
  have hsub2 : {u : ℝ | u ∈ Set.Ico (0:ℝ) 1 ∧ acceptsFP (FP.fin dH) u} ⊆
      Set.Icc (0:ℝ) (min 1 (Real.exp dH)) := by
    intro u hu
    exact ⟨hu.1.1, (acceptsFP_fin_iff dH u hu.1.1 hu.1.2).mp hu.2⟩
  have lb : MeasureTheory.volume (Set.Ico (0:ℝ) (min 1 (Real.exp dH))) ≤
      MeasureTheory.volume {u : ℝ | u ∈ Set.Ico (0:ℝ) 1 ∧ acceptsFP (FP.fin dH) u} :=
    MeasureTheory.measure_mono hsub1
  have ub : MeasureTheory.volume {u : ℝ | u ∈ Set.Ico (0:ℝ) 1 ∧ acceptsFP (FP.fin dH) u} ≤
      MeasureTheory.volume (Set.Icc (0:ℝ) (min 1 (Real.exp dH))) :=
    MeasureTheory.measure_mono hsub2
  rw [Real.volume_Ico, sub_zero] at lb
  rw [Real.volume_Icc, sub_zero] at ub
  exact le_antisymm ub lb

/-- Witness for `hmc_accept_probability` at `dH = 0`, `u = 1/2`. -/
theorem hmc_accept_probability_witness :
    (0:ℝ) < 1/2 ∧ (1/2:ℝ) < 1 ∧
      (acceptsFP (FP.fin 0) (1/2) ↔ Real.log (1/2) ≤ min 0 0) :=
  ⟨by norm_num, by norm_num,
    (hmc_accept_probability 0).1 (1/2) (by norm_num) (by norm_num)⟩

/-- C10: whenever the proposed total energy is at most the current one (both
finite), the proposal is accepted for every possible uniform draw in `[0,1)`:
acceptance is certain, not merely of probability one. -/
theorem hmc_certain_accept (H H_prop u : ℝ) (hle : H_prop ≤ H)
    (h0 : 0 ≤ u) (h1 : u < 1) :
    acceptsFP (FP.fin (H - H_prop)) u := by
  refine (acceptsFP_fin_iff _ u h0 h1).mpr ?_
  rw [min_eq_left (Real.one_le_exp (by linarith))]
  linarith

/-- Witness for `hmc_certain_accept` at `H = 1`, `H_prop = 0`, `u = 1/2`. -/
theorem hmc_certain_accept_witness :
    (0:ℝ) ≤ 1 ∧ (0:ℝ) ≤ 1/2 ∧ (1/2:ℝ) < 1 ∧
      acceptsFP (FP.fin ((1:ℝ) - 0)) (1/2) :=
  ⟨by norm_num, by norm_num, by norm_num,
    hmc_certain_accept 1 0 (1/2) (by norm_num) (by norm_num) (by norm_num)⟩

/-- C2 counterexample: a non-finite energy difference is not automatically
rejected.  With `H - H_prop = +inf` (e.g. an infinitely better proposal) the
clamped ratio is `min(0, +inf) = 0` and the comparison `0 >= log u` succeeds
for the in-range uniform draw `u = exp(-1)`, so the step accepts. -/
theorem hmc_nonfinite_reject_counterexample :
    acceptsFP FP.pinf (Real.exp (-1)) ∧
      0 ≤ Real.exp (-1:ℝ) ∧ Real.exp (-1:ℝ) < 1 := by
  refine ⟨?_, (Real.exp_pos _).le, Real.exp_lt_one_iff.mpr (by norm_num)⟩
  rw [acceptsFP_def_pos _ _ (ne_of_gt (Real.exp_pos _)), npMinimum_fin_pinf,
    Real.log_exp, fpGe_fin_fin]
  simp only [decide_eq_true_eq]
  norm_num

/-- C2 amended: the accept/reject step never accepts on the basis of a NaN
comparison — a NaN energy difference is always rejected — but non-finite
differences are not uniformly rejected: a `+inf` difference is always
accepted (so a `-inf` proposed energy propagates into the next state), and a
`-inf` difference is rejected for every nonzero uniform draw yet accepted
when the draw is exactly `0`. -/
theorem hmc_nonfinite_cases (u : ℝ) (h0 : 0 ≤ u) (h1 : u < 1) :
    ¬ acceptsFP FP.nan u ∧ acceptsFP FP.pinf u ∧ (acceptsFP FP.ninf u ↔ u = 0) := by
  by_cases hu : u = 0
  · subst hu
    refine ⟨?_, ?_, ?_⟩
    · rw [acceptsFP_def_zero, npMinimum_fin_nan, fpGe_nan_left]
      simp
    · rw [acceptsFP_def_zero, npMinimum_fin_pinf, fpGe_fin_ninf]
    · rw [acceptsFP_def_zero, npMinimum_fin_ninf, fpGe_ninf_ninf]
      simp
  · have hu' : 0 < u := h0.lt_of_ne (Ne.symm hu)
    refine ⟨?_, ?_, ?_⟩
    · rw [acceptsFP_def_pos _ u hu, npMinimum_fin_nan, fpGe_nan_left]
      simp
    · rw [acceptsFP_def_pos _ u hu, npMinimum_fin_pinf, fpGe_fin_fin]
      simp only [decide_eq_true_eq]
      exact Real.log_nonpos h0 h1.le
    · rw [acceptsFP_def_pos _ u hu, npMinimum_fin_ninf, fpGe_ninf_fin]
      simp [hu]

/-- Witness for `hmc_nonfinite_cases` at `u = 1/2`. -/
theorem hmc_nonfinite_cases_witness :
    (0:ℝ) ≤ 1/2 ∧ (1/2:ℝ) < 1 ∧
      (¬ acceptsFP FP.nan (1/2) ∧ acceptsFP FP.pinf (1/2) ∧
        (acceptsFP FP.ninf (1/2) ↔ (1/2:ℝ) = 0)) :=
  ⟨by norm_num, by norm_num, hmc_nonfinite_cases (1/2) (by norm_num) (by norm_num)⟩

theorem hmcEnergy_diff {ι K : Type} [Fintype ι] [LinearOrderedField K]
    (lp : (ι → K) → K) (m m' p : ι → K) :
    hmcEnergy lp m p - hmcEnergy lp m' p = lp m' - lp m := by
  unfold hmcEnergy
  ring

theorem leapfrog_zero_iterate {ι K : Type} [LinearOrderedField K]
    (dt : K) (m p : ι → K) (n : ℕ) :
    (leapfrogInner (fun _ _ => 0) dt)^[n] (m, p, fun _ => -(0:K)) =
      (fun i => m i + n * dt * p i, p, fun _ => -(0:K)) := by
  induction n with
  | zero =>
      simp only [Function.iterate_zero, id_eq, Prod.mk.injEq]
      refine ⟨?_, trivial⟩
      funext i
      simp
  | succ n ih =>
      rw [Function.iterate_succ_apply', ih]
      simp only [leapfrogInner, Prod.mk.injEq]
      refine ⟨?_, ?_, trivial⟩
      · funext i
        push_cast
        ring
      · funext i
        ring

theorem hmcLeapfrog_zero {ι K : Type} [LinearOrderedField K]
    (dt : K) (Nt : ℕ) (m p : ι → K) :
    hmcLeapfrog (fun _ _ => 0) dt Nt m p = (fun i => m i + Nt * dt * p i, p) := by
  unfold hmcLeapfrog
  rw [show (fun i : ι => -((fun (_ : ι → K) (_ : ι) => (0:K)) m i)) = fun _ : ι => -(0:K)
    from rfl]
  rw [leapfrog_zero_iterate]

/-- C6 amended: with a gradient oracle that always returns zero, the
leap-frog integration collapses to the position move `m + Nt*dt*p` with the
momentum unchanged, the kinetic terms cancel so the energy difference equals
the log-posterior difference, and the HMC decision agrees with the
Metropolis-Hastings sampler's rule (`np.exp(rho_prop-rho) > np.random.rand()`)
for every uniform draw except the boundary `u = exp(rho_prop - rho)`,
where HMC's non-strict log-domain comparison accepts but the
Metropolis-Hastings strict comparison rejects. -/
theorem hmc_zero_grad_metropolis {ι : Type} [Fintype ι]
    (lp : (ι → ℝ) → ℝ) (dt : ℝ) (Nt : ℕ) (m p : ι → ℝ) (u : ℝ)
    (h0 : 0 ≤ u) (h1 : u < 1) :
    hmcLeapfrog (fun _ _ => 0) dt Nt m p = (fun i => m i + Nt * dt * p i, p) ∧
    hmcEnergy lp m p - hmcEnergy lp (fun i => m i + Nt * dt * p i) p =
      lp (fun i => m i + Nt * dt * p i) - lp m ∧
    (u ≠ Real.exp (lp (fun i => m i + Nt * dt * p i) - lp m) →
      (acceptsFP
          (FP.fin (hmcEnergy lp m p - hmcEnergy lp (fun i => m i + Nt * dt * p i) p)) u ↔
        mhAccepts (lp (fun i => m i + Nt * dt * p i)) (lp m) u)) := by
  refine ⟨hmcLeapfrog_zero dt Nt m p, hmcEnergy_diff lp m _ p, fun hne => ?_⟩
  rw [hmcEnergy_diff lp m _ p]
  unfold mhAccepts
  rw [acceptsFP_fin_iff _ u h0 h1]
  constructor
  · intro h
    exact lt_of_le_of_ne (le_trans h (min_le_right _ _)) hne
  · intro h
    exact le_min h1.le h.le

/-- Witness for `hmc_zero_grad_metropolis` with a constant log-posterior,
one leap-frog step, and `u = 1/2` (off the boundary `exp 0 = 1`). -/
theorem hmc_zero_grad_metropolis_witness :
    acceptsFP
        (FP.fin (hmcEnergy (fun _ : Fin 1 → ℝ => (0:ℝ)) (fun _ => 0) (fun _ => 0) -
          hmcEnergy (fun _ : Fin 1 → ℝ => (0:ℝ))
            (fun _ : Fin 1 => (0:ℝ) + ((1:ℕ):ℝ) * 1 * 0) (fun _ => 0)))
        (1/2) ↔
      mhAccepts 0 0 (1/2) :=
  (hmc_zero_grad_metropolis (fun _ => 0) 1 1 (fun _ => 0) (fun _ => 0) (1/2)
      (by norm_num) (by norm_num)).2.2 (by norm_num [Real.exp_zero])

/-- C6 counterexample: the accept/reject decisions do not coincide at the
boundary draw.  With zero gradient, `lp v = -(v 0)`, `dt = 1`, `Nt = 1`,
`m = 0`, `p = 1`, the proposal has `rho_prop - rho = -1`; at the in-range
uniform draw `u = exp(-1)` the HMC rule accepts while the
Metropolis-Hastings rule rejects. -/
theorem hmc_zero_grad_boundary_counterexample :
    acceptsFP
        (FP.fin (hmcEnergy (fun v : Fin 1 → ℝ => -(v 0)) (fun _ => 0) (fun _ => 1) -
          hmcEnergy (fun v : Fin 1 → ℝ => -(v 0))
            (hmcLeapfrog (fun _ _ => 0) 1 1 (fun _ => 0) (fun _ => 1)).1
            (hmcLeapfrog (fun _ _ => 0) 1 1 (fun _ => 0) (fun _ => 1)).2))
        (Real.exp (-1)) ∧
      ¬ mhAccepts ((fun v : Fin 1 → ℝ => -(v 0))
            (hmcLeapfrog (fun _ _ => 0) 1 1 (fun _ => 0) (fun _ => 1)).1)
          ((fun v : Fin 1 → ℝ => -(v 0)) (fun _ => 0)) (Real.exp (-1)) ∧
      0 ≤ Real.exp (-1:ℝ) ∧ Real.exp (-1:ℝ) < 1 := by
  rw [hmcLeapfrog_zero 1 1 (fun _ => 0) (fun _ => 1)]
  have hd : hmcEnergy (fun v : Fin 1 → ℝ => -(v 0)) (fun _ => 0) (fun _ => 1) -
      hmcEnergy (fun v : Fin 1 → ℝ => -(v 0))
        (fun i : Fin 1 => (fun _ : Fin 1 => (0:ℝ)) i + ((1:ℕ):ℝ) * 1 * (fun _ : Fin 1 => (1:ℝ)) i)
        (fun _ => 1) = -1 := by
    rw [hmcEnergy_diff]
    norm_num
  rw [hd]
  refine ⟨?_, ?_, (Real.exp_pos _).le, Real.exp_lt_one_iff.mpr (by norm_num)⟩
  · rw [acceptsFP_fin_pos _ _ (Real.exp_pos _), Real.log_exp]
    norm_num
  · unfold mhAccepts
    norm_num
